import Mathlib

/-!
Verification of the deterministic transcript-structuring core of the
medical-nlp-system repository.

Texts are modelled as `List Char` (Python `str`).  Python regular-expression
character classes are modelled over their ASCII behaviour: `\s` by
`pyIsSpace`, `\w` by `pyIsWord`, `\d` by `Char.isDigit`.  Case folding
(`str.lower`) is modelled character-wise by `Char.toLower`.

Every scanning function is written structurally (one character consumed per
recursive call, with an explicit skip counter where a match consumes several
characters), so that all definitions compute by kernel reduction.
-/

namespace MedNLP

/-! ## Character classes and basic string operations -/

/-- Python whitespace (`\s`, `str.strip`, `str.split`) over ASCII. -/
def pyIsSpace (c : Char) : Bool :=
  c = ' ' || c = '\t' || c = '\n' || c = '\r' || c = '\x0b' || c = '\x0c'

/-- Python word character (`\w`) over ASCII: alphanumeric or underscore. -/
def pyIsWord (c : Char) : Bool :=
  c.isAlphanum || c = '_'

/-- `str.lower`, character-wise. -/
def lower (l : List Char) : List Char := l.map Char.toLower

/-- `str.strip()`: drop whitespace from both ends. -/
def strip (l : List Char) : List Char :=
  ((l.dropWhile pyIsSpace).reverse.dropWhile pyIsSpace).reverse

/-- Python substring test `n in h` (contiguous). -/
def isSubstr (n h : List Char) : Bool :=
  match h with
  | [] => n.isEmpty
  | _ :: t => n.isPrefixOf h || isSubstr n t

/-- Declarative contiguous-substring relation. -/
def SubstrOf (n h : List Char) : Prop := ∃ p q, h = p ++ n ++ q

/-! ## TextCleaner (src/preprocessing/text_cleaner.py) -/

/-- `re.sub(r'\*+', '', text)`: removing every run of `*` removes every `*`. -/
def removeMarkdown (l : List Char) : List Char := l.filter (fun c => c != '*')

/-- Worker for `re.sub(r'\s+', ' ', text)`; the flag records whether the
previous character was part of a whitespace run already emitted as `' '`. -/
def collapseAux : Bool → List Char → List Char
  | _, [] => []
  | inSp, c :: rest =>
    if pyIsSpace c then
      if inSp then collapseAux true rest else ' ' :: collapseAux true rest
    else c :: collapseAux false rest

/-- `re.sub(r'\s+', ' ', text)`: each maximal whitespace run becomes one space. -/
def collapseWS (l : List Char) : List Char := collapseAux false l

/-- Worker for `str.replace(pat, rep)`: left-to-right, non-overlapping.
`skip > 0` means that many characters of a just-replaced match remain to be
consumed.  (Python's replace with an empty pattern is never used by the
source; the `pat ≠ []` guard makes that case the identity here.) -/
def prAux (pat rep : List Char) : Nat → List Char → List Char
  | _, [] => []
  | Nat.succ n, _ :: rest => prAux pat rep n rest
  | 0, c :: rest =>
    if pat ≠ [] ∧ pat.isPrefixOf (c :: rest) then
      rep ++ prAux pat rep (pat.length - 1) rest
    else
      c :: prAux pat rep 0 rest

/-- `s.replace(pat, rep)`. -/
def pyReplace (s pat rep : List Char) : List Char := prAux pat rep 0 s

/-- Case-insensitive literal prefix test. -/
def ciPrefixOf (w s : List Char) : Bool := (lower w).isPrefixOf (lower s)

/-- `\b` before a match: start of string or previous character not a word char. -/
def bBefore : Option Char → Bool
  | none => true
  | some c => !(pyIsWord c)

/-- `\b` after a match: end of string or next character not a word char. -/
def bAfter : List Char → Bool
  | [] => true
  | c :: _ => !(pyIsWord c)

/-- Worker for `re.sub(rf'\b{key}\b', rep, s, flags=IGNORECASE)`.
`prev` is the character just before the current position in the original
string, `skip` the number of characters of a replaced match still to consume
(they still feed `prev`, as Python checks `\b` against the original text). -/
def wsAux (k rep : List Char) : Nat → Option Char → List Char → List Char
  | _, _, [] => []
  | Nat.succ n, _, c :: rest => wsAux k rep n (some c) rest
  | 0, prev, c :: rest =>
    if k ≠ [] ∧ ciPrefixOf k (c :: rest) ∧ bBefore prev ∧
        bAfter ((c :: rest).drop k.length) then
      rep ++ wsAux k rep (k.length - 1) (some c) rest
    else
      c :: wsAux k rep 0 (some c) rest

/-- Whole-word case-insensitive substitution of one abbreviation. -/
def wordSub (k rep s : List Char) : List Char := wsAux k rep 0 none s

/-- `MEDICAL_ABBREVIATIONS` from src/config/constants.py, in table order. -/
def abbrevTable : List (List Char × List Char) :=
  [("A&E", "Accident and Emergency"),
   ("pt", "patient"),
   ("pts", "patients"),
   ("dr", "doctor"),
   ("hx", "history"),
   ("tx", "treatment"),
   ("rx", "prescription"),
   ("sx", "symptoms"),
   ("dx", "diagnosis"),
   ("ROM", "range of motion"),
   ("BP", "blood pressure"),
   ("HR", "heart rate"),
   ("resp", "respiration")].map (fun p => (p.1.toList, p.2.toList))

/-- `TextCleaner._expand_abbreviations`: each table entry substituted in order. -/
def expandAbbrevs (s : List Char) : List Char :=
  abbrevTable.foldl (fun t kv => wordSub kv.1 kv.2 t) s

/-- The literal pattern actually replaced by line 117 of text_cleaner.py:
`text.replace(''', "'")...` parses the middle as one triple-quoted string, so
the call is `text.replace(<this pattern>, "'")`. -/
def mangledQuotePat : List Char := (", \"'\").replace(").toList

/-- `TextCleaner.clean`: guard on blank input, then remove markdown, collapse
whitespace, normalize punctuation (the two double-quote replaces are the
identity; the third replace is the mangled line 117), expand abbreviations,
and strip. -/
def clean (s : List Char) : List Char :=
  if strip s = [] then []
  else
    let t1 := removeMarkdown s
    let t2 := collapseWS t1
    let t3 := pyReplace t2 ['—'] ['-']
    let t4 := pyReplace t3 ['–'] ['-']
    let t5 := pyReplace t4 ['…'] ['.', '.', '.']
    let t6 := pyReplace t5 ['"'] ['"']
    let t7 := pyReplace t6 ['"'] ['"']
    let t8 := pyReplace t7 mangledQuotePat ['\'']
    strip (expandAbbrevs t8)

/-! ## SpeakerDiarizer (src/preprocessing/speaker_diarization.py) -/

/-- One dialogue entry `{'speaker': ..., 'text': ...}`. -/
structure Turn where
  speaker : List Char
  text : List Char
deriving DecidableEq, Repr

/-- `text.split('\n')`. -/
def splitNlAux (acc : List Char) : List Char → List (List Char)
  | [] => [acc.reverse]
  | c :: rest =>
    if c = '\n' then acc.reverse :: splitNlAux [] rest else splitNlAux (c :: acc) rest

def splitNl (l : List Char) : List (List Char) := splitNlAux [] l

/-- `str.rstrip('.:')`. -/
def rstripDotColon (l : List Char) : List Char :=
  (l.reverse.dropWhile (fun c => c = '.' || c = ':')).reverse

/-- `speaker_mappings`. -/
def speakerMappings : List (List Char × List Char) :=
  [("physician", "doctor"), ("doctor", "doctor"), ("dr", "doctor"),
   ("patient", "patient"), ("pt", "patient")].map (fun p => (p.1.toList, p.2.toList))

/-- `SpeakerDiarizer._normalize_speaker`. -/
def normalizeSpeaker (label : List Char) : List Char :=
  let s := rstripDotColon (strip (lower label))
  match speakerMappings.lookup s with
  | some v => v
  | none => s

/-- The ordered literal alternatives of
`^(Physician|Patient|Doctor|Dr\.?|Pt\.?)[\s:]+` with the greedy optional dot
expanded (a dotted variant is tried before its dotless one, and backtracking
falls through to the next alternative when `[\s:]+` cannot match). -/
def speakerAlts : List (List Char) :=
  ["physician", "patient", "doctor", "dr.", "dr", "pt.", "pt"].map String.toList

/-- `speaker_pattern.match(line)`: returns `(group(1), match.end())` for the
first alternative that is a case-insensitive prefix of the line and is
followed by at least one `[\s:]` character (greedily consumed). -/
def trySpeaker : List (List Char) → List Char → Option (List Char × Nat)
  | [], _ => none
  | cand :: cs, line =>
    let sep := ((line.drop cand.length).takeWhile (fun c => pyIsSpace c || c = ':')).length
    if ciPrefixOf cand line ∧ 1 ≤ sep then
      some (line.take cand.length, cand.length + sep)
    else trySpeaker cs line

def matchSpeaker (line : List Char) : Option (List Char × Nat) :=
  trySpeaker speakerAlts line

/-- `' '.join(current_text)`. -/
def joinSp : List (List Char) → List Char
  | [] => []
  | [x] => x
  | x :: xs => x ++ ' ' :: joinSp xs

/-- Flush the buffered turn (`if current_speaker and current_text`); a matched
speaker label is never the empty string, so truthiness of `current_speaker`
is `Option.isSome`. -/
def flushTurn (curSp : Option (List Char)) (curTxt : List (List Char)) : List Turn :=
  match curSp with
  | none => []
  | some sp => if curTxt = [] then [] else [⟨sp, clean (joinSp curTxt)⟩]

/-- The per-line loop of `SpeakerDiarizer.parse_transcript` (the stripped
line is written out in place of the loop-local `line` variable). -/
def parseLines (curSp : Option (List Char)) (curTxt : List (List Char)) :
    List (List Char) → List Turn
  | [] => flushTurn curSp curTxt
  | l :: ls =>
    if strip l = [] then parseLines curSp curTxt ls
    else if (strip l).head? = some '[' ∧ (strip l).getLast? = some ']' then
      parseLines curSp curTxt ls
    else
      match matchSpeaker (strip l) with
      | some m =>
        flushTurn curSp curTxt ++
          parseLines (some (normalizeSpeaker (rstripDotColon (lower m.1))))
            (if strip ((strip l).drop m.2) = [] then []
             else [strip ((strip l).drop m.2)]) ls
      | none =>
        if curSp.isSome then parseLines curSp (curTxt ++ [strip l]) ls
        else parseLines curSp curTxt ls

/-- `SpeakerDiarizer.parse_transcript`. -/
def parse_transcript (text : List Char) : List Turn :=
  if strip text = [] then [] else parseLines none [] (splitNl text)

/-- `SpeakerDiarizer.get_patient_statements`. -/
def get_patient_statements (dialogues : List Turn) : List (List Char) :=
  (dialogues.filter (fun d => d.speaker == "patient".toList && !(strip d.text).isEmpty)).map
    (fun d => d.text)

/-- `SpeakerDiarizer.get_doctor_statements`. -/
def get_doctor_statements (dialogues : List Turn) : List (List Char) :=
  (dialogues.filter (fun d => d.speaker == "doctor".toList && !(strip d.text).isEmpty)).map
    (fun d => d.text)

/-- `len(text.split())`: number of maximal non-whitespace runs. -/
def countWordsAux : Bool → List Char → Nat
  | _, [] => 0
  | inW, c :: rest =>
    if pyIsSpace c then countWordsAux false rest
    else if inW then countWordsAux true rest
    else 1 + countWordsAux true rest

def countWords (l : List Char) : Nat := countWordsAux false l

/-- `SpeakerDiarizer.get_dialogue_stats`, as the association list of the
returned dict (counts and the average as rationals).  Note the empty-input
early return builds a dict without the `avg_words_per_turn` key. -/
def get_dialogue_stats (dialogues : List Turn) : List (String × ℚ) :=
  if dialogues = [] then
    [("total_turns", 0), ("doctor_turns", 0), ("patient_turns", 0), ("total_words", 0)]
  else
    let doctorTurns := (dialogues.filter (fun d => d.speaker == "doctor".toList)).length
    let patientTurns := (dialogues.filter (fun d => d.speaker == "patient".toList)).length
    let totalWords := (dialogues.map (fun d => countWords d.text)).sum
    [("total_turns", (dialogues.length : ℚ)),
     ("doctor_turns", (doctorTurns : ℚ)),
     ("patient_turns", (patientTurns : ℚ)),
     ("total_words", (totalWords : ℚ)),
     ("avg_words_per_turn",
       if dialogues = [] then 0 else (totalWords : ℚ) / (dialogues.length : ℚ))]

/-! ## EntityValidator (src/models/ner/entity_validator.py) -/

/-- The validator's stop-word set. -/
def stopWords : List (List Char) :=
  ["the", "a", "an", "and", "or", "but", "in", "on", "at",
   "to", "for", "of", "with", "by", "from", "as", "is", "was",
   "are", "were", "been", "be", "have", "has", "had", "do",
   "does", "did", "will", "would", "could", "should", "may",
   "might", "must", "can", "this", "that", "these", "those"].map String.toList

/-- A character matched by `[^\w\s]`. -/
def punctChar (c : Char) : Bool := !(pyIsWord c) && !(pyIsSpace c)

/-- `EntityValidator.validate_entity` with the default `min_length = 2`,
`max_length = 100`.  The stripped entity is non-empty past the first guard,
so `re.match(r'^\d+$')` and `re.match(r'^[^\w\s]+$')` are the `all` tests. -/
def validate_entity (entity : List Char) : Bool :=
  if strip entity = [] then false
  else
    let ec := strip entity
    if ec.length < 2 then false
    else if 100 < ec.length then false
    else if stopWords.contains (lower ec) then false
    else if ec.all Char.isDigit then false
    else if ec.all punctChar then false
    else true

/-- `EntityValidator.clean_entity`: strip, collapse whitespace, then
`re.sub(r'^[^\w\s]+|[^\w\s]+$', '', ...)` (drop the leading and the trailing
run of punctuation characters). -/
def clean_entity (entity : List Char) : List Char :=
  let e1 := collapseWS (strip entity)
  ((e1.dropWhile punctChar).reverse.dropWhile punctChar).reverse

/-- `EntityValidator.filter_valid_entities`. -/
def filter_valid_entities : List (List Char) → List (List Char)
  | [] => []
  | e :: rest =>
    let c := clean_entity e
    if validate_entity c then c :: filter_valid_entities rest
    else filter_valid_entities rest

/-- Worker for `EntityValidator.deduplicate` (`seen` holds the lowered,
stripped keys already emitted). -/
def dedupAux (seen : List (List Char)) : List (List Char) → List (List Char)
  | [] => []
  | e :: rest =>
    let k := strip (lower e)
    if seen.contains k then dedupAux seen rest
    else e :: dedupAux (k :: seen) rest

/-- `EntityValidator.deduplicate`. -/
def deduplicate (entities : List (List Char)) : List (List Char) :=
  dedupAux [] entities

/-- Stable insertion keeping longer entries first (equal lengths keep
insertion order, as Python's stable `sorted(key=len, reverse=True)`). -/
def insertLenDesc (e : List Char) : List (List Char) → List (List Char)
  | [] => [e]
  | f :: fs => if f.length ≤ e.length then e :: f :: fs else f :: insertLenDesc e fs

/-- `sorted(entities, key=len, reverse=True)`. -/
def sortLenDesc : List (List Char) → List (List Char)
  | [] => []
  | e :: rest => insertLenDesc e (sortLenDesc rest)

/-- The filtering loop of `EntityValidator.remove_substrings`: drop an entry
whose lowered form is a strict case-insensitive substring of an already-kept
entry. -/
def rsAux (kept : List (List Char)) : List (List Char) → List (List Char)
  | [] => []
  | e :: rest =>
    if kept.any (fun k => isSubstr (lower e) (lower k) && lower e != lower k) then
      rsAux kept rest
    else e :: rsAux (kept ++ [e]) rest

/-- `EntityValidator.remove_substrings`. -/
def remove_substrings (entities : List (List Char)) : List (List Char) :=
  if entities = [] then [] else rsAux [] (sortLenDesc entities)

/-- `EntityValidator.validate_entities_dict` over an insertion-ordered dict. -/
def validate_entities_dict (entities : List (String × List (List Char))) :
    List (String × List (List Char)) :=
  entities.map (fun ce =>
    (ce.1, remove_substrings (deduplicate (filter_valid_entities ce.2))))

/-! ## SOAPGenerator._extract_severity (src/generators/soap_generator.py) -/

/-- Worker for `re.search(rf'\b{word}\b', t, IGNORECASE)`: scan every
position, checking a case-insensitive literal match bracketed by word
boundaries (`prev` is the character before the current position). -/
def hasWordAux (w : List Char) : Option Char → List Char → Bool
  | _, [] => false
  | prev, c :: rest =>
    (ciPrefixOf w (c :: rest) && bBefore prev && bAfter ((c :: rest).drop w.length))
    || hasWordAux w (some c) rest

/-- Whole-word case-insensitive search for one literal word. -/
def hasWordCI (w : String) (t : List Char) : Bool := hasWordAux w.toList none t

/-- `SOAPGenerator._extract_severity`: ordered tiers, first match wins.  A
search for `\b(a|b|c)\b` succeeds exactly when one of the whole words occurs
(every alternative starts and ends with a word character).  The source's
second tier spells the duplicated alternation `\b(moderate|moderate)\b`. -/
def extract_severity (transcript : List Char) : String :=
  if hasWordCI "severe" transcript || hasWordCI "critical" transcript ||
      hasWordCI "serious" transcript then "Severe"
  else if hasWordCI "moderate" transcript || hasWordCI "moderate" transcript then "Moderate"
  else if hasWordCI "mild" transcript || hasWordCI "minor" transcript ||
      hasWordCI "better" transcript || hasWordCI "improving" transcript then "Mild"
  else "Not specified"

/-- Declarative reading of `\b<word>\b` with IGNORECASE matching somewhere in
`t`: `t` splits as `p ++ mid ++ q` where `mid` equals the word up to case,
`p` does not end in a word character and `q` does not start with one. -/
def ContainsWordCI (w : String) (t : List Char) : Prop :=
  ∃ p mid q, t = p ++ mid ++ q ∧ lower mid = lower w.toList ∧
    (∀ c, p.getLast? = some c → pyIsWord c = false) ∧
    (∀ c, q.head? = some c → pyIsWord c = false)

/-- The left word-boundary condition at a scan position: against the tracked
previous character when the candidate split has no further characters before
the match, and against the split's last character otherwise. -/
def bdOK (prev : Option Char) : Option Char → Prop
  | none => bBefore prev = true
  | some c => pyIsWord c = false

/-! ## TemporalExtractor (src/preprocessing/temporal_extractor.py)

The extractor's patterns are embedded through a small backtracking regex
engine with Python semantics: leftmost alternative first, greedy `?`, `*`,
`+`, and `{m,n}`; `re.finditer` scans for leftmost non-overlapping matches.
The engine is fuelled (the fuel bounds backtracking depth); all the source's
patterns match at least one character, so the scanner always advances. -/

inductive RE where
  | eps : RE
  | cls (p : Char → Bool) : RE
  | cat (a b : RE) : RE
  | alt (a b : RE) : RE
  | star (a : RE) : RE

/-- Backtracking matcher in continuation style: `k` receives the remaining
input after the part matched by `re`; `alt` tries its left branch first and
`star` is greedy.  Returns the remaining input of the first overall success. -/
def mrun : Nat → RE → List Char → (List Char → Option (List Char)) → Option (List Char)
  | 0, _, _, _ => none
  | Nat.succ n, re, s, k =>
    match re with
    | .eps => k s
    | .cls p =>
      match s with
      | [] => none
      | c :: rest => if p c then k rest else none
    | .cat a b => mrun n a s (fun s2 => mrun n b s2 k)
    | .alt a b =>
      match mrun n a s k with
      | some r => some r
      | none => mrun n b s k
    | .star a =>
      match mrun n a s (fun s2 => mrun n (.star a) s2 k) with
      | some r => some r
      | none => k s

/-- Fuel bound: generous in the pattern size and the input length. -/
def reSize : RE → Nat
  | .eps => 1
  | .cls _ => 1
  | .cat a b => reSize a + reSize b + 1
  | .alt a b => reSize a + reSize b + 1
  | .star a => reSize a + 1

/-- `pattern.match` at the start of `s`: the length of the match, if any. -/
def matchLen (re : RE) (s : List Char) : Option Nat :=
  match mrun ((reSize re + 2) * (s.length + 2) * 4) re s some with
  | some rest => some (s.length - rest.length)
  | none => none

/-- One temporal mention `{'text': ..., 'position': span, 'type': ...}`. -/
structure TMention where
  text : List Char
  position : Nat × Nat
  type : String
deriving DecidableEq, Repr

/-- `pattern.finditer(text)`: scan left to right; each match is recorded with
its span and the scan resumes after it (a zero-width match advances by one;
the source's patterns never match the empty string). -/
def finditerAux (re : RE) : Nat → Nat → List Char → List (List Char × Nat × Nat)
  | 0, _, _ => []
  | _, _, [] => []
  | Nat.succ fuel, pos, s =>
    match matchLen re s with
    | some len =>
      if len = 0 then finditerAux re fuel (pos + 1) s.tail
      else (s.take len, pos, pos + len) :: finditerAux re fuel (pos + len) (s.drop len)
    | none => finditerAux re fuel (pos + 1) s.tail

def finditer (re : RE) (s : List Char) : List (List Char × Nat × Nat) :=
  finditerAux re (s.length + 1) 0 s

/-! Pattern construction helpers. -/

/-- A case-insensitive literal. -/
def reLit (w : String) : RE :=
  w.toList.foldr (fun c acc => RE.cat (RE.cls (fun x => x.toLower = c.toLower)) acc) RE.eps

/-- Ordered alternation, leftmost first. -/
def reAlts : List RE → RE
  | [] => RE.eps
  | [r] => r
  | r :: rs => RE.alt r (reAlts rs)

def reOpt (r : RE) : RE := RE.alt r RE.eps
def rePlus (r : RE) : RE := RE.cat r (RE.star r)
def reDigit : RE := RE.cls Char.isDigit
def reWordC : RE := RE.cls pyIsWord
def reSpaceC : RE := RE.cls pyIsSpace
def reCat : List RE → RE
  | [] => RE.eps
  | [r] => r
  | r :: rs => RE.cat r (reCat rs)

/-- `\d{1,2}` (greedy: two digits tried before one). -/
def reD12 : RE := RE.cat reDigit (reOpt reDigit)

/-- `self.date_patterns`, in declared order. -/
def datePatterns : List RE :=
  [ -- \w+\s+\d{1,2}(?:st|nd|rd|th)?(?:,?\s+\d{4})?
    reCat [rePlus reWordC, rePlus reSpaceC, reD12,
           reOpt (reAlts [reLit "st", reLit "nd", reLit "rd", reLit "th"]),
           reOpt (reCat [reOpt (reLit ","), rePlus reSpaceC,
                         reDigit, reDigit, reDigit, reDigit])],
    -- \d{1,2}/\d{1,2}/\d{2,4}
    reCat [reD12, reLit "/", reD12, reLit "/",
           reDigit, reDigit, reOpt (RE.cat reDigit (reOpt reDigit))],
    -- \d{4}-\d{2}-\d{2}
    reCat [reDigit, reDigit, reDigit, reDigit, reLit "-",
           reDigit, reDigit, reLit "-", reDigit, reDigit],
    -- last\s+(?:week|month|year|Monday|...|Sunday)
    reCat [reLit "last", rePlus reSpaceC,
           reAlts [reLit "week", reLit "month", reLit "year", reLit "Monday",
                   reLit "Tuesday", reLit "Wednesday", reLit "Thursday",
                   reLit "Friday", reLit "Saturday", reLit "Sunday"]],
    -- (?:this|next)\s+(?:week|month|year|Monday|...|Sunday)
    reCat [reAlts [reLit "this", reLit "next"], rePlus reSpaceC,
           reAlts [reLit "week", reLit "month", reLit "year", reLit "Monday",
                   reLit "Tuesday", reLit "Wednesday", reLit "Thursday",
                   reLit "Friday", reLit "Saturday", reLit "Sunday"]]]

/-- `self.time_patterns`, in declared order. -/
def timePatterns : List RE :=
  [ -- \d{1,2}:\d{2}(?::\d{2})?\s*(?:am|pm|AM|PM)?
    reCat [reD12, reLit ":", reDigit, reDigit,
           reOpt (reCat [reLit ":", reDigit, reDigit]),
           RE.star reSpaceC, reOpt (reAlts [reLit "am", reLit "pm", reLit "AM", reLit "PM"])],
    -- (?:morning|afternoon|evening|night)
    reAlts [reLit "morning", reLit "afternoon", reLit "evening", reLit "night"],
    -- \d{1,2}\s*(?:am|pm|AM|PM)
    reCat [reD12, RE.star reSpaceC,
           reAlts [reLit "am", reLit "pm", reLit "AM", reLit "PM"]]]

/-- `self.duration_patterns`, in declared order. -/
def durationPatterns : List RE :=
  [ -- \d+\s*(?:week|month|day|year|hour|minute)s?
    reCat [rePlus reDigit, RE.star reSpaceC,
           reAlts [reLit "week", reLit "month", reLit "day", reLit "year",
                   reLit "hour", reLit "minute"],
           reOpt (reLit "s")],
    -- (?:first|last|past)\s+\d+\s*(?:week|month|day|year)s?
    reCat [reAlts [reLit "first", reLit "last", reLit "past"], rePlus reSpaceC,
           rePlus reDigit, RE.star reSpaceC,
           reAlts [reLit "week", reLit "month", reLit "day", reLit "year"],
           reOpt (reLit "s")],
    -- \d+\s*session(?:s)?
    reCat [rePlus reDigit, RE.star reSpaceC, reLit "session", reOpt (reLit "s")],
    -- \d+\s*time(?:s)?
    reCat [rePlus reDigit, RE.star reSpaceC, reLit "time", reOpt (reLit "s")]]

/-- The common extraction loop: for each pattern in order, every match whose
stripped, lowered text is new becomes a mention (first occurrence wins). -/
def collectMentions (ty : String) (seen : List (List Char)) :
    List (List Char × Nat × Nat) → List TMention
  | [] => []
  | (txt, s, e) :: rest =>
    let t := strip txt
    if seen.contains (lower t) then collectMentions ty seen rest
    else ⟨t, (s, e), ty⟩ :: collectMentions ty (lower t :: seen) rest

def extractKind (ty : String) (pats : List RE) (text : List Char) : List TMention :=
  collectMentions ty [] (pats.foldr (fun p acc => finditer p text ++ acc) [])

/-- `TemporalExtractor.extract_dates`. -/
def extract_dates (text : List Char) : List TMention :=
  extractKind "date" datePatterns text

/-- `TemporalExtractor.extract_times`. -/
def extract_times (text : List Char) : List TMention :=
  extractKind "time" timePatterns text

/-- `TemporalExtractor.extract_durations`. -/
def extract_durations (text : List Char) : List TMention :=
  extractKind "duration" durationPatterns text

/-- `TemporalExtractor.extract_all_temporal` (the dict with keys
`dates`, `times`, `durations`). -/
def extract_all_temporal (text : List Char) :
    List TMention × List TMention × List TMention :=
  (extract_dates text, extract_times text, extract_durations text)

/-! ## MedicalNLPPipeline.process (src/pipeline/medical_nlp_pipeline.py)

The learned collaborators (scispaCy NER, sentiment, intent, keyword scoring,
summarizer fields) are opaque: their outputs are parameters of the model.
The deterministic stages (cleaning, diarization, entity validation, temporal
extraction) are the embedded definitions above. -/

/-- JSON-like values for the output envelope; collaborator outputs are
arbitrary `PVal`s supplied by the `Collab` parameter. -/
inductive PVal where
  | s (v : String) : PVal
  | cs (v : List Char) : PVal
  | num (v : ℚ) : PVal
  | arr (vs : List PVal) : PVal
  | obj (fields : List (String × PVal)) : PVal

/-- Opaque collaborator outputs (`datetime.now`, NER, sentiment, intent,
keywords, summarizer), one field per call site in `process`. -/
structure Collab where
  now : String
  extractEntities : List Char → List (String × List (List Char))
  extractDiagnosis : List Char → PVal
  extractPrognosis : List Char → PVal
  analyzeSentiment : List (List Char) → PVal
  overallSentiment : PVal → PVal
  sentimentTimeline : PVal → PVal
  classifyIntents : List (List Char) → PVal
  intentDistribution : PVal → PVal
  extractKeywords : List Char → List (String × PVal)
  roundScore : PVal → PVal
  medicalPhrases : List Char → PVal
  summaryPatientName : List Char → List Turn → PVal
  summarySymptoms : List Char → List Turn → PVal
  summaryTreatments : List Char → List Turn → PVal
  summaryCurrentStatus : List Char → List Turn → PVal

/-- Dict access `dialogue_stats[key]`; the three keys used by `process` are
present in both branches of `get_dialogue_stats`, so the default is never
taken. -/
def statAt (stats : List (String × ℚ)) (key : String) : ℚ :=
  (stats.lookup key).getD 0

/-- `MedicalNLPPipeline.process` as the insertion-ordered association list of
the returned dict. -/
def process (C : Collab) (raw_text : List Char) : List (String × PVal) :=
  if strip raw_text = [] then [("error", PVal.s "Empty input text")]
  else
    let cleaned := clean raw_text
    let dialogues := parse_transcript raw_text
    let patientStatements := get_patient_statements dialogues
    let stats := get_dialogue_stats dialogues
    let entities := validate_entities_dict (C.extractEntities cleaned)
    let temporal := extract_all_temporal cleaned
    let sentimentResults := C.analyzeSentiment patientStatements
    let intentResults := C.classifyIntents patientStatements
    let keywords := C.extractKeywords cleaned
    [("metadata", PVal.obj
        [("processed_at", PVal.s C.now),
         ("pipeline_version", PVal.s "1.0.0"),
         ("total_dialogues", PVal.num (statAt stats "total_turns")),
         ("doctor_turns", PVal.num (statAt stats "doctor_turns")),
         ("patient_turns", PVal.num (statAt stats "patient_turns"))]),
     ("summary", PVal.obj
        [("patient_name", C.summaryPatientName cleaned dialogues),
         ("symptoms", C.summarySymptoms cleaned dialogues),
         ("diagnosis", C.extractDiagnosis cleaned),
         ("treatments", C.summaryTreatments cleaned dialogues),
         ("current_status", C.summaryCurrentStatus cleaned dialogues),
         ("prognosis", C.extractPrognosis cleaned)]),
     ("entities", PVal.obj (entities.map (fun ce =>
        (ce.1, PVal.arr (ce.2.map PVal.cs))))),
     ("temporal_info", PVal.obj
        [("dates", PVal.arr (temporal.1.map (fun m => PVal.cs m.text))),
         ("times", PVal.arr (temporal.2.1.map (fun m => PVal.cs m.text))),
         ("durations", PVal.arr (temporal.2.2.map (fun m => PVal.cs m.text)))]),
     ("sentiment_analysis", PVal.obj
        [("overall", C.overallSentiment sentimentResults),
         ("timeline", C.sentimentTimeline sentimentResults),
         ("per_statement", sentimentResults)]),
     ("intent_analysis", PVal.obj
        [("distribution", C.intentDistribution intentResults),
         ("per_statement", intentResults)]),
     ("keywords", PVal.obj
        [("top_keywords", PVal.arr (keywords.map (fun kw =>
            PVal.obj [("keyword", PVal.s kw.1), ("score", C.roundScore kw.2)]))),
         ("medical_phrases", C.medicalPhrases cleaned)]),
     ("dialogues", PVal.arr (dialogues.map (fun t =>
        PVal.obj [("speaker", PVal.cs t.speaker), ("text", PVal.cs t.text)])))]

/-- A trivial collaborator assignment, used to instantiate universally
quantified pipeline statements at concrete inputs. -/
def trivCollab : Collab where
  now := ""
  extractEntities := fun _ => []
  extractDiagnosis := fun _ => PVal.s ""
  extractPrognosis := fun _ => PVal.s ""
  analyzeSentiment := fun _ => PVal.arr []
  overallSentiment := fun _ => PVal.s ""
  sentimentTimeline := fun _ => PVal.arr []
  classifyIntents := fun _ => PVal.arr []
  intentDistribution := fun _ => PVal.obj []
  extractKeywords := fun _ => []
  roundScore := fun v => v
  medicalPhrases := fun _ => PVal.arr []
  summaryPatientName := fun _ _ => PVal.s "Patient"
  summarySymptoms := fun _ _ => PVal.arr []
  summaryTreatments := fun _ _ => PVal.arr []
  summaryCurrentStatus := fun _ _ => PVal.s ""

/-! ## Concrete inputs used by the claim theorems and witnesses -/

/-- Scenario A input. -/
def scenarioA : List Char :=
  "Physician: Hello.\nPatient: I have pain.\nPhysician: I see.".toList

/-- A transcript whose only turn text consists of asterisks: the cleaner
reduces it to the empty string. -/
def c5Input : List Char := "Doctor: ***".toList

/-- An input on which `clean` is not idempotent: one replacement of the
mangled pattern leaves a fresh occurrence of the same pattern behind. -/
def c6Input : List Char := ", \"".toList ++ mangledQuotePat ++ "\").replace(".toList

/-- Scenario E entity input. -/
def c4Input : List (List Char) :=
  ["neck pain", "NECK PAIN", "neck", "pain in neck"].map String.toList

/-- Witness dictionary for the entity-curation invariant. -/
def c1WitDict : List (String × List (List Char)) :=
  [("symptoms", ["neck pain", "NECK PAIN", "neck", "pain in neck"].map String.toList),
   ("treatments", ["physiotherapy sessions", "physiotherapy"].map String.toList)]

/-- Witness dialogue list for the statement views. -/
def c10WitDialogues : List Turn :=
  [⟨"patient".toList, "I have pain.".toList⟩,
   ⟨"patient".toList, "   ".toList⟩,
   ⟨"doctor".toList, "I see.".toList⟩]

/-- The per-category output invariant of `validate_entities_dict`: two kept
entries are neither case-insensitively equal nor in a case-insensitive
substring relation. -/
def entOK (a b : List Char) : Prop :=
  lower a ≠ lower b ∧ ¬ SubstrOf (lower a) (lower b) ∧ ¬ SubstrOf (lower b) (lower a)

end MedNLP

namespace MedNLP

/-! # Supporting lemmas -/

theorem isPrefixOf_exists : ∀ (a b : List Char), a.isPrefixOf b = true ↔ ∃ t, b = a ++ t
  | [], b => by simp [List.isPrefixOf]
  | _ :: _, [] => by simp [List.isPrefixOf]
  | x :: xs, y :: ys => by
    simp only [List.isPrefixOf, Bool.and_eq_true, beq_iff_eq, List.cons_append,
      List.cons.injEq]
    constructor
    · rintro ⟨rfl, h⟩
      obtain ⟨t, rfl⟩ := (isPrefixOf_exists xs ys).1 h
      exact ⟨t, rfl, rfl⟩
    · rintro ⟨t, rfl, rfl⟩
      exact ⟨rfl, (isPrefixOf_exists xs (xs ++ t)).2 ⟨t, rfl⟩⟩

theorem isSubstr_iff : ∀ (n h : List Char), isSubstr n h = true ↔ SubstrOf n h
  | n, [] => by
    constructor
    · intro hn
      simp only [isSubstr, List.isEmpty_iff] at hn
      exact ⟨[], [], by simp [hn]⟩
    · rintro ⟨p, q, hpq⟩
      have : n = [] := by
        rcases List.append_eq_nil.1 hpq.symm with ⟨h1, h2⟩
        exact (List.append_eq_nil.1 h1).2
      simp [isSubstr, this]
  | n, c :: t => by
    simp only [isSubstr, Bool.or_eq_true, isPrefixOf_exists, isSubstr_iff n t]
    constructor
    · rintro (⟨q, hq⟩ | ⟨p, q, hpq⟩)
      · exact ⟨[], q, by simp [hq]⟩
      · exact ⟨c :: p, q, by simp [hpq]⟩
    · rintro ⟨p, q, hpq⟩
      cases p with
      | nil => exact Or.inl ⟨q, by simpa using hpq⟩
      | cons x p =>
        right
        refine ⟨p, q, ?_⟩
        simp only [List.cons_append] at hpq
        injection hpq with h1 h2

theorem substrOf_length_le {a b : List Char} (h : SubstrOf a b) : a.length ≤ b.length := by
  obtain ⟨p, q, rfl⟩ := h
  simp only [List.length_append]
  omega

theorem substrOf_eq_of_length {a b : List Char} (h : SubstrOf a b)
    (hl : b.length ≤ a.length) : a = b := by
  obtain ⟨p, q, rfl⟩ := h
  simp only [List.length_append] at hl
  have hp : p = [] := List.length_eq_zero.1 (by omega)
  have hq : q = [] := List.length_eq_zero.1 (by omega)
  simp [hp, hq]

theorem lower_length (l : List Char) : (lower l).length = l.length :=
  List.length_map l Char.toLower

theorem lowNe_of_keyNe {a b : List Char}
    (h : strip (lower a) ≠ strip (lower b)) : lower a ≠ lower b :=
  fun heq => h (by rw [heq])

/-! ### Deduplication invariants -/

theorem dedupAux_key_notmem :
    ∀ (es : List (List Char)) (seen : List (List Char)),
      ∀ e ∈ dedupAux seen es, strip (lower e) ∉ seen := by
  intro es
  induction es with
  | nil => intro seen e he; simp [dedupAux] at he
  | cons x rest ih =>
    intro seen e he
    simp only [dedupAux] at he
    by_cases hc : seen.contains (strip (lower x)) = true
    · rw [if_pos hc] at he
      exact ih seen e he
    · rw [if_neg hc] at he
      rcases List.mem_cons.1 he with rfl | hmem
      · exact fun hin => hc (List.elem_eq_true_of_mem hin)
      · have := ih (strip (lower x) :: seen) e hmem
        exact fun hin => this (List.mem_cons_of_mem _ hin)

theorem dedupAux_pairwise :
    ∀ (es : List (List Char)) (seen : List (List Char)),
      (dedupAux seen es).Pairwise (fun a b => strip (lower a) ≠ strip (lower b)) := by
  intro es
  induction es with
  | nil => intro seen; simp [dedupAux]
  | cons x rest ih =>
    intro seen
    simp only [dedupAux]
    by_cases hc : seen.contains (strip (lower x)) = true
    · rw [if_pos hc]; exact ih seen
    · rw [if_neg hc]
      refine List.Pairwise.cons (fun b hb => ?_) (ih _)
      have := dedupAux_key_notmem rest (strip (lower x) :: seen) b hb
      exact fun heq => this (heq ▸ List.mem_cons_self _ _)

theorem deduplicate_pairwise (es : List (List Char)) :
    (deduplicate es).Pairwise (fun a b => strip (lower a) ≠ strip (lower b)) :=
  dedupAux_pairwise es []

/-! ### Sorting by descending length -/

theorem mem_insertLenDesc {a e : List Char} :
    ∀ (l : List (List Char)), a ∈ insertLenDesc e l ↔ a = e ∨ a ∈ l
  | [] => by simp [insertLenDesc]
  | f :: fs => by
    simp only [insertLenDesc]
    split
    · simp
    · simp only [List.mem_cons, mem_insertLenDesc fs]
      tauto

theorem mem_sortLenDesc {a : List Char} :
    ∀ (l : List (List Char)), a ∈ sortLenDesc l ↔ a ∈ l
  | [] => by simp [sortLenDesc]
  | e :: rest => by
    simp only [sortLenDesc, mem_insertLenDesc, mem_sortLenDesc rest, List.mem_cons]

theorem pairwise_insertLenDesc {R : List Char → List Char → Prop}
    (hsym : ∀ a b, R a b → R b a) (e : List Char) :
    ∀ (l : List (List Char)), (∀ b ∈ l, R e b) → l.Pairwise R →
      (insertLenDesc e l).Pairwise R
  | [] => by simp [insertLenDesc]
  | f :: fs => by
    intro hrel hpw
    simp only [insertLenDesc]
    rcases List.pairwise_cons.1 hpw with ⟨hf, hfs⟩
    split
    · exact List.Pairwise.cons hrel hpw
    · refine List.Pairwise.cons (fun b hb => ?_)
        (pairwise_insertLenDesc hsym e fs
          (fun b hb => hrel b (List.mem_cons_of_mem _ hb)) hfs)
      rcases (mem_insertLenDesc fs).1 hb with rfl | hb
      · exact hsym _ _ (hrel f (List.mem_cons_self _ _))
      · exact hf b hb

theorem pairwise_sortLenDesc {R : List Char → List Char → Prop}
    (hsym : ∀ a b, R a b → R b a) :
    ∀ (l : List (List Char)), l.Pairwise R → (sortLenDesc l).Pairwise R
  | [] => by simp [sortLenDesc]
  | e :: rest => by
    intro hpw
    rcases List.pairwise_cons.1 hpw with ⟨he, hrest⟩
    exact pairwise_insertLenDesc hsym e (sortLenDesc rest)
      (fun b hb => he b ((mem_sortLenDesc rest).1 hb))
      (pairwise_sortLenDesc hsym rest hrest)

theorem insertLenDesc_sorted (e : List Char) :
    ∀ (l : List (List Char)),
      l.Pairwise (fun a b => b.length ≤ a.length) →
      (insertLenDesc e l).Pairwise (fun a b => b.length ≤ a.length)
  | [] => by simp [insertLenDesc]
  | f :: fs => by
    intro hpw
    rcases List.pairwise_cons.1 hpw with ⟨hf, hfs⟩
    simp only [insertLenDesc]
    split
    · rename_i hle
      refine List.Pairwise.cons (fun b hb => ?_) hpw
      rcases List.mem_cons.1 hb with rfl | hb
      · exact hle
      · exact le_trans (hf b hb) hle
    · rename_i hlt
      refine List.Pairwise.cons (fun b hb => ?_) (insertLenDesc_sorted e fs hfs)
      rcases (mem_insertLenDesc fs).1 hb with rfl | hb
      · omega
      · exact hf b hb

theorem sortLenDesc_sorted :
    ∀ (l : List (List Char)),
      (sortLenDesc l).Pairwise (fun a b => b.length ≤ a.length)
  | [] => by simp [sortLenDesc]
  | e :: rest => insertLenDesc_sorted e (sortLenDesc rest) (sortLenDesc_sorted rest)

/-! ### The substring-collapse invariant -/

theorem entOK_symm {a b : List Char} (h : entOK a b) : entOK b a :=
  ⟨h.1.symm, h.2.2, h.2.1⟩

/-- If `e` passes the check against `k` (it is not a strict case-insensitive
substring), `k` is at least as long and has a different dedup key, then `e`
and `k` satisfy the output invariant. -/
theorem entOK_of_check {k e : List Char}
    (hchk : (isSubstr (lower e) (lower k) && (lower e != lower k)) = false)
    (hlen : e.length ≤ k.length)
    (hkey : strip (lower k) ≠ strip (lower e)) : entOK k e := by
  have hlow : lower k ≠ lower e := lowNe_of_keyNe hkey
  refine ⟨hlow, ?_, ?_⟩
  · intro hsub
    have h1 : k.length ≤ e.length := by
      have := substrOf_length_le hsub
      simpa [lower_length] using this
    exact hlow (substrOf_eq_of_length hsub (by simpa [lower_length] using hlen))
  · intro hsub
    have h1 : isSubstr (lower e) (lower k) = true := (isSubstr_iff _ _).2 hsub
    have h2 : (lower e != lower k) = true := bne_iff_ne.2 (Ne.symm hlow)
    simp [h1, h2] at hchk

theorem rsAux_spec :
    ∀ (rest kept : List (List Char)),
      (∀ k ∈ kept, ∀ e ∈ rest, e.length ≤ k.length) →
      (∀ k ∈ kept, ∀ e ∈ rest, strip (lower k) ≠ strip (lower e)) →
      rest.Pairwise (fun a b => strip (lower a) ≠ strip (lower b)) →
      rest.Pairwise (fun a b => b.length ≤ a.length) →
      (∀ o ∈ rsAux kept rest, o ∈ rest ∧ ∀ k ∈ kept, entOK k o) ∧
        (rsAux kept rest).Pairwise entOK := by
  intro rest
  induction rest with
  | nil =>
    intro kept _ _ _ _
    refine ⟨fun o ho => ?_, by simp [rsAux]⟩
    simp [rsAux] at ho
  | cons e rest ih =>
    intro kept hLen hKey hPK hPL
    rcases List.pairwise_cons.1 hPK with ⟨hKhead, hPK'⟩
    rcases List.pairwise_cons.1 hPL with ⟨hLhead, hPL'⟩
    simp only [rsAux]
    by_cases hc :
        (kept.any (fun k => isSubstr (lower e) (lower k) && (lower e != lower k))) = true
    · rw [if_pos hc]
      have hLen' : ∀ k ∈ kept, ∀ x ∈ rest, x.length ≤ k.length :=
        fun k hk x hx => hLen k hk x (List.mem_cons_of_mem _ hx)
      have hKey' : ∀ k ∈ kept, ∀ x ∈ rest, strip (lower k) ≠ strip (lower x) :=
        fun k hk x hx => hKey k hk x (List.mem_cons_of_mem _ hx)
      obtain ⟨hmem, hpw⟩ := ih kept hLen' hKey' hPK' hPL'
      exact ⟨fun o ho => ⟨List.mem_cons_of_mem _ (hmem o ho).1, (hmem o ho).2⟩, hpw⟩
    · rw [if_neg hc]
      have hchkAll : ∀ k ∈ kept,
          (isSubstr (lower e) (lower k) && (lower e != lower k)) = false := by
        intro k hk
        cases h : (isSubstr (lower e) (lower k) && (lower e != lower k)) with
        | false => rfl
        | true => exact absurd (List.any_eq_true.2 ⟨k, hk, h⟩) hc
      have hGoodKept : ∀ k ∈ kept, entOK k e := fun k hk =>
        entOK_of_check (hchkAll k hk) (hLen k hk e (List.mem_cons_self _ _))
          (hKey k hk e (List.mem_cons_self _ _))
      have hLen' : ∀ k ∈ kept ++ [e], ∀ x ∈ rest, x.length ≤ k.length := by
        intro k hk x hx
        rcases List.mem_append.1 hk with hk | hk
        · exact hLen k hk x (List.mem_cons_of_mem _ hx)
        · rcases List.mem_singleton.1 hk with rfl
          exact hLhead x hx
      have hKey' : ∀ k ∈ kept ++ [e], ∀ x ∈ rest, strip (lower k) ≠ strip (lower x) := by
        intro k hk x hx
        rcases List.mem_append.1 hk with hk | hk
        · exact hKey k hk x (List.mem_cons_of_mem _ hx)
        · rcases List.mem_singleton.1 hk with rfl
          exact hKhead x hx
      obtain ⟨hmem, hpw⟩ := ih (kept ++ [e]) hLen' hKey' hPK' hPL'
      constructor
      · intro o ho
        rcases List.mem_cons.1 ho with rfl | ho
        · exact ⟨List.mem_cons_self _ _, hGoodKept⟩
        · obtain ⟨ho1, ho2⟩ := hmem o ho
          exact ⟨List.mem_cons_of_mem _ ho1,
            fun k hk => ho2 k (List.mem_append.2 (Or.inl hk))⟩
      · refine List.Pairwise.cons (fun o ho => ?_) hpw
        exact (hmem o ho).2 e (List.mem_append.2 (Or.inr (List.mem_singleton.2 rfl)))

theorem remove_substrings_pairwise (es : List (List Char))
    (hkeys : es.Pairwise (fun a b => strip (lower a) ≠ strip (lower b))) :
    (remove_substrings es).Pairwise entOK := by
  unfold remove_substrings
  split
  · simp
  · have hsorted := sortLenDesc_sorted es
    have hkeys' := pairwise_sortLenDesc (fun a b h => h.symm) es hkeys
    exact (rsAux_spec (sortLenDesc es) [] (by simp) (by simp) hkeys' hsorted).2

/-- **C1.** Every category list in the output of `validate_entities_dict`
has pairwise case-insensitively distinct entries with no case-insensitive
strict substring relation between any two kept entries. -/
theorem C1_validated_entities_invariant
    (d : List (String × List (List Char))) :
    ∀ p ∈ validate_entities_dict d,
      p.2.Pairwise (fun a b => lower a ≠ lower b ∧
        ¬ SubstrOf (lower a) (lower b) ∧ ¬ SubstrOf (lower b) (lower a)) := by
  intro p hp
  obtain ⟨ce, _, rfl⟩ := List.mem_map.1 hp
  exact remove_substrings_pairwise _ (deduplicate_pairwise _)

/-- Witness for C1 at a concrete entity dictionary. -/
theorem C1_witness :
    (("symptoms", ["pain in neck".toList, "neck pain".toList]) :
        String × List (List Char)) ∈ validate_entities_dict c1WitDict ∧
    (["pain in neck".toList, "neck pain".toList] : List (List Char)).Pairwise
      (fun a b => lower a ≠ lower b ∧
        ¬ SubstrOf (lower a) (lower b) ∧ ¬ SubstrOf (lower b) (lower a)) :=
  ⟨by decide,
    C1_validated_entities_invariant c1WitDict
      ("symptoms", ["pain in neck".toList, "neck pain".toList]) (by decide)⟩

set_option maxRecDepth 20000

/-- **C3.** `get_dialogue_stats` applied to the empty dialogue list: the
returned dict has no `avg_words_per_turn` key at all (the claim says the key
is present with value 0; the unreachable `else 0` branch of the non-empty
return shows that intent). -/
theorem C3_stats_empty_has_no_avg_key :
    (get_dialogue_stats []).lookup "avg_words_per_turn" = none ∧
    get_dialogue_stats [] =
      [("total_turns", 0), ("doctor_turns", 0), ("patient_turns", 0), ("total_words", 0)] := by
  constructor <;> rfl

/-- **C4.** Curating `["neck pain", "NECK PAIN", "neck", "pain in neck"]`
through validate+clean, deduplication and substring collapse yields
`["pain in neck", "neck pain"]`, not the claimed `["neck pain"]`:
`"pain in neck"` is not a character-level substring of `"neck pain"`, so the
collapse keeps it (contradicting the validator's own docstring example). -/
theorem C4_entity_curation_keeps_pain_in_neck :
    remove_substrings (deduplicate (filter_valid_entities c4Input)) =
      ["pain in neck".toList, "neck pain".toList] ∧
    validate_entities_dict [("symptoms", c4Input)] =
      [("symptoms", ["pain in neck".toList, "neck pain".toList])] := by
  constructor <;> rfl

/-- **C6.** `clean` is not idempotent: on `c6Input` the first pass's
replacement of the mangled pattern of text_cleaner.py line 117 splices a new
occurrence of that pattern together, which only the second pass replaces. -/
theorem C6_clean_not_idempotent : clean (clean c6Input) ≠ clean c6Input := by
  decide

/-- **C7.** Scenario A: three turns with speakers doctor, patient, doctor,
and the statistics report one patient turn. -/
theorem C7_scenario_A :
    (parse_transcript scenarioA).map Turn.speaker =
      ["doctor".toList, "patient".toList, "doctor".toList] ∧
    (parse_transcript scenarioA).length = 3 ∧
    (get_dialogue_stats (parse_transcript scenarioA)).lookup "patient_turns" = some 1 := by
  refine ⟨by rfl, by rfl, by rfl⟩

/-- **C5, counterexample.** Not every turn produced by `parse_transcript`
has non-empty text: the buffered text `***` of `"Doctor: ***"` is cleaned to
the empty string. -/
theorem C5_counterexample :
    ¬ (∀ t ∈ parse_transcript c5Input, t.text ≠ []) := by
  decide

/-- **C9.** `extract_all_temporal` is deterministic and total: it is a pure
function of the text (the source reads no state besides its compiled
patterns), so two invocations agree, and its value is always the triple of
the three extraction lists. -/
theorem C9_temporal_deterministic (text : List Char) :
    extract_all_temporal text = extract_all_temporal text ∧
    extract_all_temporal text =
      (extract_dates text, extract_times text, extract_durations text) :=
  ⟨rfl, rfl⟩

/-! ### Non-emptiness of cleaned turn text (for the amended C5) -/

theorem mem_dropWhile_of_not {p : Char → Bool} :
    ∀ (l : List Char) (c : Char), c ∈ l → p c = false → c ∈ l.dropWhile p
  | [], c => by simp
  | x :: xs, c => by
    intro hc hp
    by_cases hx : p x = true
    · rw [List.dropWhile_cons_of_pos hx]
      rcases List.mem_cons.1 hc with rfl | hc
      · rw [hx] at hp; cases hp
      · exact mem_dropWhile_of_not xs c hc hp
    · rw [List.dropWhile_cons_of_neg hx]
      exact hc

theorem mem_of_mem_dropWhile {p : Char → Bool} {l : List Char} {c : Char}
    (h : c ∈ l.dropWhile p) : c ∈ l :=
  (List.dropWhile_sublist p).subset h

theorem mem_strip_of_not_space {l : List Char} {c : Char}
    (hc : c ∈ l) (hp : pyIsSpace c = false) : c ∈ strip l := by
  unfold strip
  refine List.mem_reverse.2 (mem_dropWhile_of_not _ c ?_ hp)
  exact List.mem_reverse.2 (mem_dropWhile_of_not _ c hc hp)

theorem mem_of_mem_strip {l : List Char} {c : Char} (h : c ∈ strip l) : c ∈ l := by
  unfold strip at h
  have h1 := List.mem_reverse.1 h
  have h2 := mem_of_mem_dropWhile h1
  have h3 := List.mem_reverse.1 h2
  exact mem_of_mem_dropWhile h3

theorem dropWhile_head_false {p : Char → Bool} :
    ∀ (l : List Char) (c : Char) (t : List Char), l.dropWhile p = c :: t → p c = false
  | [], c, t => by simp
  | x :: xs, c, t => by
    intro h
    by_cases hx : p x = true
    · rw [List.dropWhile_cons_of_pos hx] at h
      exact dropWhile_head_false xs c t h
    · rw [List.dropWhile_cons_of_neg hx] at h
      cases h
      exact Bool.eq_false_iff.2 hx

theorem strip_ne_of_witness {X : List Char} (h : ∃ c ∈ X, pyIsSpace c = false) :
    strip X ≠ [] := by
  obtain ⟨c, hc, hp⟩ := h
  intro hnil
  simpa [hnil] using mem_strip_of_not_space hc hp

theorem strip_witness {l : List Char} (h : strip l ≠ []) :
    ∃ c ∈ strip l, pyIsSpace c = false := by
  cases hd : (l.dropWhile pyIsSpace).reverse.dropWhile pyIsSpace with
  | nil =>
    exfalso
    apply h
    unfold strip
    rw [hd]
    rfl
  | cons c t =>
    refine ⟨c, ?_, dropWhile_head_false _ c t hd⟩
    unfold strip
    rw [hd]
    exact List.mem_reverse.2 (List.mem_cons_self _ _)

theorem collapseAux_witness :
    ∀ (l : List Char) (b : Bool), (∃ c ∈ l, pyIsSpace c = false) →
      ∃ c ∈ collapseAux b l, pyIsSpace c = false
  | [], b => by simp
  | x :: xs, b => by
    rintro ⟨c, hc, hp⟩
    rcases List.mem_cons.1 hc with rfl | hc
    · simp only [collapseAux, hp]
      exact ⟨c, by simp, hp⟩
    · simp only [collapseAux]
      by_cases hx : pyIsSpace x = true
      · rw [if_pos hx]
        obtain ⟨d, hd, hdp⟩ := collapseAux_witness xs true ⟨c, hc, hp⟩
        split
        · exact ⟨d, hd, hdp⟩
        · exact ⟨d, List.mem_cons_of_mem _ hd, hdp⟩
      · rw [if_neg hx]
        obtain ⟨d, hd, hdp⟩ := collapseAux_witness xs false ⟨c, hc, hp⟩
        exact ⟨d, List.mem_cons_of_mem _ hd, hdp⟩

theorem prAux_witness (pat rep : List Char) (hrep : ∃ c ∈ rep, pyIsSpace c = false) :
    ∀ (s : List Char), (∃ c ∈ s, pyIsSpace c = false) →
      ∃ c ∈ prAux pat rep 0 s, pyIsSpace c = false
  | [] => by simp
  | x :: xs => by
    rintro ⟨c, hc, hp⟩
    simp only [prAux]
    split
    · obtain ⟨d, hd, hdp⟩ := hrep
      exact ⟨d, List.mem_append.2 (Or.inl hd), hdp⟩
    · rcases List.mem_cons.1 hc with rfl | hc
      · exact ⟨c, List.mem_cons_self _ _, hp⟩
      · obtain ⟨d, hd, hdp⟩ := prAux_witness pat rep hrep xs ⟨c, hc, hp⟩
        exact ⟨d, List.mem_cons_of_mem _ hd, hdp⟩

theorem wsAux_witness (k rep : List Char) (hrep : ∃ c ∈ rep, pyIsSpace c = false) :
    ∀ (s : List Char) (prev : Option Char), (∃ c ∈ s, pyIsSpace c = false) →
      ∃ c ∈ wsAux k rep 0 prev s, pyIsSpace c = false
  | [], prev => by simp
  | x :: xs, prev => by
    rintro ⟨c, hc, hp⟩
    simp only [wsAux]
    split
    · obtain ⟨d, hd, hdp⟩ := hrep
      exact ⟨d, List.mem_append.2 (Or.inl hd), hdp⟩
    · rcases List.mem_cons.1 hc with rfl | hc
      · exact ⟨c, List.mem_cons_self _ _, hp⟩
      · obtain ⟨d, hd, hdp⟩ := wsAux_witness k rep hrep xs (some x) ⟨c, hc, hp⟩
        exact ⟨d, List.mem_cons_of_mem _ hd, hdp⟩

theorem expandFold_witness :
    ∀ (table : List (List Char × List Char)) (s : List Char),
      (∀ kv ∈ table, ∃ c ∈ kv.2, pyIsSpace c = false) →
      (∃ c ∈ s, pyIsSpace c = false) →
      ∃ c ∈ table.foldl (fun t kv => wordSub kv.1 kv.2 t) s, pyIsSpace c = false
  | [], s => fun _ hs => hs
  | kv :: kvs, s => by
    intro htab hs
    exact expandFold_witness kvs (wordSub kv.1 kv.2 s)
      (fun x hx => htab x (List.mem_cons_of_mem _ hx))
      (wsAux_witness kv.1 kv.2 (htab kv (List.mem_cons_self _ _)) s none hs)

theorem clean_ne_nil {s : List Char}
    (h : ∃ c ∈ s, pyIsSpace c = false ∧ c ≠ '*') : clean s ≠ [] := by
  obtain ⟨c, hc, hp, hstar⟩ := h
  have hstrip : strip s ≠ [] := strip_ne_of_witness ⟨c, hc, hp⟩
  unfold clean
  rw [if_neg hstrip]
  have h1 : ∃ d ∈ removeMarkdown s, pyIsSpace d = false :=
    ⟨c, List.mem_filter.2 ⟨hc, by simpa using hstar⟩, hp⟩
  have h2 := collapseAux_witness _ false h1
  have h3 := prAux_witness ['—'] ['-'] (by decide) _ h2
  have h4 := prAux_witness ['–'] ['-'] (by decide) _ h3
  have h5 := prAux_witness ['…'] ['.', '.', '.'] (by decide) _ h4
  have h6 := prAux_witness ['"'] ['"'] (by decide) _ h5
  have h7 := prAux_witness ['"'] ['"'] (by decide) _ h6
  have h8 := prAux_witness mangledQuotePat ['\''] (by decide) _ h7
  exact strip_ne_of_witness (expandFold_witness abbrevTable _ (by decide) h8)

/-! ### The diarizer invariant (amended C5) -/

theorem joinSp_mem_head {c : Char} {x : List Char} :
    ∀ (xs : List (List Char)), c ∈ x → c ∈ joinSp (x :: xs)
  | [] => fun h => h
  | y :: ys => fun h => by
    simp only [joinSp]
    exact List.mem_append.2 (Or.inl h)

theorem splitNlAux_chars :
    ∀ (s acc : List Char), ∀ l ∈ splitNlAux acc s, ∀ c ∈ l, c ∈ s ∨ c ∈ acc
  | [], acc => by
    intro l hl c hc
    simp only [splitNlAux, List.mem_singleton] at hl
    subst hl
    exact Or.inr (List.mem_reverse.1 hc)
  | x :: xs, acc => by
    intro l hl c hc
    simp only [splitNlAux] at hl
    split at hl
    · rcases List.mem_cons.1 hl with rfl | hl
      · exact Or.inr (List.mem_reverse.1 hc)
      · rcases splitNlAux_chars xs [] l hl c hc with h | h
        · exact Or.inl (List.mem_cons_of_mem _ h)
        · simp at h
    · rcases splitNlAux_chars xs (x :: acc) l hl c hc with h | h
      · exact Or.inl (List.mem_cons_of_mem _ h)
      · rcases List.mem_cons.1 h with rfl | h
        · exact Or.inl (List.mem_cons_self _ _)
        · exact Or.inr h

theorem flushTurn_text_ne (curSp : Option (List Char)) (curTxt : List (List Char))
    (hTxt : ∀ l ∈ curTxt, ∃ c ∈ l, pyIsSpace c = false ∧ c ≠ '*') :
    ∀ t ∈ flushTurn curSp curTxt, t.text ≠ [] := by
  intro t ht
  cases curSp with
  | none => simp [flushTurn] at ht
  | some sp =>
    simp only [flushTurn] at ht
    split at ht
    · simp at ht
    · rename_i hne
      rcases List.mem_singleton.1 ht with rfl
      cases curTxt with
      | nil => exact absurd rfl hne
      | cons x xs =>
        obtain ⟨c, hc, hp, hstar⟩ := hTxt x (List.mem_cons_self _ _)
        exact clean_ne_nil ⟨c, joinSp_mem_head xs hc, hp, hstar⟩

theorem parseLines_text_ne :
    ∀ (lines : List (List Char)) (curSp : Option (List Char))
      (curTxt : List (List Char)),
      (∀ l ∈ curTxt, ∃ c ∈ l, pyIsSpace c = false ∧ c ≠ '*') →
      (∀ l ∈ lines, ∀ c ∈ l, c ≠ '*') →
      ∀ t ∈ parseLines curSp curTxt lines, t.text ≠ []
  | [], curSp, curTxt => fun hTxt _ => flushTurn_text_ne curSp curTxt hTxt
  | l :: ls, curSp, curTxt => by
    intro hTxt hLines t ht
    have hlsStar : ∀ x ∈ ls, ∀ c ∈ x, c ≠ '*' :=
      fun x hx => hLines x (List.mem_cons_of_mem _ hx)
    have hlStar : ∀ c ∈ strip l, c ≠ '*' :=
      fun c hc => hLines l (List.mem_cons_self _ _) c (mem_of_mem_strip hc)
    simp only [parseLines] at ht
    split at ht
    · exact parseLines_text_ne ls curSp curTxt hTxt hlsStar t ht
    · rename_i hne
      split at ht
      · exact parseLines_text_ne ls curSp curTxt hTxt hlsStar t ht
      · split at ht
        · rcases List.mem_append.1 ht with ht | ht
          · exact flushTurn_text_ne curSp curTxt hTxt t ht
          · refine parseLines_text_ne ls _ _ ?_ hlsStar t ht
            intro x hx
            split at hx
            · simp at hx
            · rename_i hafter
              rcases List.mem_singleton.1 hx with rfl
              obtain ⟨c, hc, hp⟩ := strip_witness hafter
              refine ⟨c, hc, hp, ?_⟩
              exact hlStar c (List.mem_of_mem_drop (mem_of_mem_strip hc))
        · split at ht
          · exact parseLines_text_ne ls curSp (curTxt ++ [strip l])
              (by
                intro x hx
                rcases List.mem_append.1 hx with hx | hx
                · exact hTxt x hx
                · rcases List.mem_singleton.1 hx with rfl
                  obtain ⟨c, hc, hp⟩ := strip_witness hne
                  exact ⟨c, hc, hp, hlStar c hc⟩)
              hlsStar t ht
          · exact parseLines_text_ne ls curSp curTxt hTxt hlsStar t ht

/-- **C5, amended.** For every transcript containing no `*` character, every
dialogue turn returned by `parse_transcript` has a non-empty text field (the
counterexample forces the asterisk restriction: a buffered text consisting
only of asterisks is cleaned to the empty string). -/
theorem C5_amended_nonempty_text (raw : List Char) (hstar : ∀ c ∈ raw, c ≠ '*') :
    ∀ t ∈ parse_transcript raw, t.text ≠ [] := by
  unfold parse_transcript
  split
  · simp
  · refine parseLines_text_ne (splitNl raw) none [] (by simp) ?_
    intro l hl c hc
    rcases splitNlAux_chars raw [] l hl c hc with h | h
    · exact hstar c h
    · simp at h

/-- Witness for the amended C5 at a concrete asterisk-free transcript. -/
theorem C5_amended_witness :
    (∀ c ∈ "Physician: Hello there.".toList, c ≠ '*') ∧
    (∀ t ∈ parse_transcript "Physician: Hello there.".toList, t.text ≠ []) :=
  ⟨by decide, C5_amended_nonempty_text _ (by decide)⟩

/-- **C10.** The derived statement views return exactly the non-blank texts
of turns of the requested speaker: every returned string is the text of a
`patient` (resp. `doctor`) turn and strips to a non-empty string. -/
theorem C10_statement_views (ds : List Turn) :
    (∀ s ∈ get_patient_statements ds,
      ∃ t, t ∈ ds ∧ t.speaker = "patient".toList ∧ t.text = s ∧ strip s ≠ []) ∧
    (∀ s ∈ get_doctor_statements ds,
      ∃ t, t ∈ ds ∧ t.speaker = "doctor".toList ∧ t.text = s ∧ strip s ≠ []) := by
  constructor <;>
  · intro s hs
    simp only [get_patient_statements, get_doctor_statements, List.mem_map,
      List.mem_filter, Bool.and_eq_true, beq_iff_eq, Bool.not_eq_true',
      List.isEmpty_eq_false] at hs
    obtain ⟨t, ⟨ht, hsp, hne⟩, rfl⟩ := hs
    exact ⟨t, ht, hsp, rfl, hne⟩

/-- Witness for C10 at a concrete dialogue list containing a blank-text
patient turn. -/
theorem C10_witness :
    "I have pain.".toList ∈ get_patient_statements c10WitDialogues ∧
    (∃ t, t ∈ c10WitDialogues ∧ t.speaker = "patient".toList ∧
      t.text = "I have pain.".toList ∧ strip "I have pain.".toList ≠ []) :=
  ⟨by decide, (C10_statement_views c10WitDialogues).1 _ (by decide)⟩

/-- **C2.** `process` returns the error envelope exactly on blank input, and
on non-blank input the returned structure has precisely the eight top-level
keys, in order. -/
theorem C2_envelope (C : Collab) (raw : List Char) :
    (process C raw = [("error", PVal.s "Empty input text")] ↔ strip raw = []) ∧
    (strip raw ≠ [] →
      (process C raw).map Prod.fst =
        ["metadata", "summary", "entities", "temporal_info", "sentiment_analysis",
         "intent_analysis", "keywords", "dialogues"]) := by
  by_cases h : strip raw = []
  · exact ⟨by simp [process, h], fun hne => absurd h hne⟩
  · refine ⟨⟨fun heq => ?_, fun h0 => absurd h0 h⟩, fun _ => by simp [process, h]⟩
    have hlen := congrArg List.length heq
    simp [process, h] at hlen

/-- Witness for C2 at a concrete non-blank input and the trivial
collaborators. -/
theorem C2_witness :
    strip "hi".toList ≠ [] ∧
    (process trivCollab "hi".toList).map Prod.fst =
      ["metadata", "summary", "entities", "temporal_info", "sentiment_analysis",
       "intent_analysis", "keywords", "dialogues"] :=
  ⟨by decide, (C2_envelope trivCollab "hi".toList).2 (by decide)⟩

/-! ### Whole-word search agrees with its declarative reading (for C8) -/

theorem bAfter_iff (q : List Char) :
    bAfter q = true ↔ ∀ c, q.head? = some c → pyIsWord c = false := by
  cases q with
  | nil => simp [bAfter]
  | cons c rest => simp [bAfter]

theorem bdOK_none_iff (o : Option Char) :
    bdOK none o ↔ ∀ c, o = some c → pyIsWord c = false := by
  cases o with
  | none => simp [bdOK, bBefore]
  | some c => simp [bdOK]

theorem lower_eq_nil {w : List Char} (h : lower w = []) : w = [] :=
  List.map_eq_nil_iff.1 h

theorem hasWordAux_iff (w : List Char) (hw : w ≠ []) :
    ∀ (t : List Char) (prev : Option Char),
      hasWordAux w prev t = true ↔
        ∃ p mid q, t = p ++ mid ++ q ∧ lower mid = lower w ∧
          bdOK prev p.getLast? ∧ bAfter q = true
  | [], prev => by
    simp only [hasWordAux]
    constructor
    · intro h; cases h
    · rintro ⟨p, mid, q, heq, hmid, -, -⟩
      rcases List.append_eq_nil.1 heq.symm with ⟨h1, h2⟩
      rcases List.append_eq_nil.1 h1 with ⟨rfl, rfl⟩
      exact absurd (lower_eq_nil hmid.symm) hw
  | c :: rest, prev => by
    simp only [hasWordAux, Bool.or_eq_true, Bool.and_eq_true]
    constructor
    · rintro (⟨⟨hpre, hbb⟩, hba⟩ | hB)
      · obtain ⟨t', ht'⟩ := (isPrefixOf_exists _ _).1 hpre
        have hlen : w.length ≤ (c :: rest).length := by
          have := congrArg List.length ht'
          simp only [List.length_append, lower_length] at this
          omega
        refine ⟨[], (c :: rest).take w.length, (c :: rest).drop w.length,
          by simp [List.take_append_drop], ?_, hbb, hba⟩
        have hmt : lower ((c :: rest).take w.length) = (lower (c :: rest)).take w.length := by
          simp [lower, List.map_take]
        rw [hmt, ht', ← lower_length w, List.take_left]
      · obtain ⟨p', mid, q, heq, hmid, hbd, hba⟩ :=
          (hasWordAux_iff w hw rest (some c)).1 hB
        refine ⟨c :: p', mid, q, by simp [heq], hmid, ?_, hba⟩
        cases p' with
        | nil =>
          simp only [bdOK, bBefore] at hbd ⊢
          simpa using hbd
        | cons d p'' =>
          rw [List.getLast?_cons_cons]
          exact hbd
    · rintro ⟨p, mid, q, heq, hmid, hbd, hba⟩
      cases p with
      | nil =>
        left
        simp only [List.nil_append] at heq
        have hmlen : mid.length = w.length := by
          have := congrArg List.length hmid
          simpa [lower_length] using this
        refine ⟨⟨?_, ?_⟩, ?_⟩
        · refine (isPrefixOf_exists _ _).2 ⟨lower q, ?_⟩
          rw [heq]
          simp only [lower, List.map_append] at hmid ⊢
          rw [hmid]
        · simpa [bdOK] using hbd
        · rw [heq, ← hmlen, List.drop_left]
          exact hba
      | cons x p' =>
        right
        simp only [List.cons_append] at heq
        injection heq with hcx hrest
        refine (hasWordAux_iff w hw rest (some c)).2 ⟨p', mid, q, hrest, hmid, ?_, hba⟩
        cases p' with
        | nil =>
          simp only [bdOK, bBefore]
          have : pyIsWord x = false := by simpa [bdOK] using hbd
          simpa [← hcx] using this
        | cons d p'' =>
          rw [List.getLast?_cons_cons] at hbd
          exact hbd

theorem hasWordCI_iff (w : String) (hw : w.toList ≠ []) (t : List Char) :
    hasWordCI w t = true ↔ ContainsWordCI w t := by
  unfold hasWordCI ContainsWordCI
  rw [hasWordAux_iff w.toList hw t none]
  constructor
  · rintro ⟨p, mid, q, heq, hmid, hbd, hba⟩
    exact ⟨p, mid, q, heq, hmid, (bdOK_none_iff _).1 hbd, (bAfter_iff q).1 hba⟩
  · rintro ⟨p, mid, q, heq, hmid, hbd, hba⟩
    exact ⟨p, mid, q, heq, hmid, (bdOK_none_iff _).2 hbd, (bAfter_iff q).2 hba⟩

/-- **C8.** Severity extraction follows the ordered tiers, first matching
tier winning, with tier membership the declarative whole-word
case-insensitive containment. -/
theorem C8_severity_tiers (t : List Char) :
    (extract_severity t = "Severe" ↔
      (ContainsWordCI "severe" t ∨ ContainsWordCI "critical" t ∨
        ContainsWordCI "serious" t)) ∧
    (extract_severity t = "Moderate" ↔
      (¬(ContainsWordCI "severe" t ∨ ContainsWordCI "critical" t ∨
          ContainsWordCI "serious" t) ∧ ContainsWordCI "moderate" t)) ∧
    (extract_severity t = "Mild" ↔
      (¬(ContainsWordCI "severe" t ∨ ContainsWordCI "critical" t ∨
          ContainsWordCI "serious" t) ∧ ¬ContainsWordCI "moderate" t ∧
        (ContainsWordCI "mild" t ∨ ContainsWordCI "minor" t ∨
          ContainsWordCI "better" t ∨ ContainsWordCI "improving" t))) ∧
    (extract_severity t = "Not specified" ↔
      (¬(ContainsWordCI "severe" t ∨ ContainsWordCI "critical" t ∨
          ContainsWordCI "serious" t) ∧ ¬ContainsWordCI "moderate" t ∧
        ¬(ContainsWordCI "mild" t ∨ ContainsWordCI "minor" t ∨
          ContainsWordCI "better" t ∨ ContainsWordCI "improving" t))) := by
  have e1 := hasWordCI_iff "severe" (by decide) t
  have e2 := hasWordCI_iff "critical" (by decide) t
  have e3 := hasWordCI_iff "serious" (by decide) t
  have e4 := hasWordCI_iff "moderate" (by decide) t
  have e5 := hasWordCI_iff "mild" (by decide) t
  have e6 := hasWordCI_iff "minor" (by decide) t
  have e7 := hasWordCI_iff "better" (by decide) t
  have e8 := hasWordCI_iff "improving" (by decide) t
  have hSev : (hasWordCI "severe" t || hasWordCI "critical" t ||
      hasWordCI "serious" t) = true ↔
      (ContainsWordCI "severe" t ∨ ContainsWordCI "critical" t ∨
        ContainsWordCI "serious" t) := by
    simp [Bool.or_eq_true, e1, e2, e3, or_assoc]
  have hMod : (hasWordCI "moderate" t || hasWordCI "moderate" t) = true ↔
      ContainsWordCI "moderate" t := by
    simp [Bool.or_eq_true, e4]
  have hMild : (hasWordCI "mild" t || hasWordCI "minor" t ||
      hasWordCI "better" t || hasWordCI "improving" t) = true ↔
      (ContainsWordCI "mild" t ∨ ContainsWordCI "minor" t ∨
        ContainsWordCI "better" t ∨ ContainsWordCI "improving" t) := by
    simp [Bool.or_eq_true, e5, e6, e7, e8, or_assoc]
  unfold extract_severity
  by_cases c1 : (hasWordCI "severe" t || hasWordCI "critical" t ||
      hasWordCI "serious" t) = true
  · rw [if_pos c1]
    exact ⟨iff_of_true rfl (hSev.1 c1),
      iff_of_false (by decide) (fun h => h.1 (hSev.1 c1)),
      iff_of_false (by decide) (fun h => h.1 (hSev.1 c1)),
      iff_of_false (by decide) (fun h => h.1 (hSev.1 c1))⟩
  · rw [if_neg c1]
    have hnSev := fun h => c1 (hSev.2 h)
    by_cases c2 : (hasWordCI "moderate" t || hasWordCI "moderate" t) = true
    · rw [if_pos c2]
      exact ⟨iff_of_false (by decide) hnSev,
        iff_of_true rfl ⟨hnSev, hMod.1 c2⟩,
        iff_of_false (by decide) (fun h => h.2.1 (hMod.1 c2)),
        iff_of_false (by decide) (fun h => h.2.1 (hMod.1 c2))⟩
    · rw [if_neg c2]
      have hnMod := fun h => c2 (hMod.2 h)
      by_cases c3 : (hasWordCI "mild" t || hasWordCI "minor" t ||
          hasWordCI "better" t || hasWordCI "improving" t) = true
      · rw [if_pos c3]
        exact ⟨iff_of_false (by decide) hnSev,
          iff_of_false (by decide) (fun h => hnMod h.2),
          iff_of_true rfl ⟨hnSev, hnMod, hMild.1 c3⟩,
          iff_of_false (by decide) (fun h => h.2.2 (hMild.1 c3))⟩
      · rw [if_neg c3]
        have hnMild := fun h => c3 (hMild.2 h)
        exact ⟨iff_of_false (by decide) hnSev,
          iff_of_false (by decide) (fun h => hnMod h.2),
          iff_of_false (by decide) (fun h => hnMild h.2.2),
          iff_of_true rfl ⟨hnSev, hnMod, hnMild⟩⟩

end MedNLP
